import Mathlib

/-!
# Chat room (`chat.go`): the room loop and the session read loop

A shallow embedding of the sequential core of `chat.go`.

* Session objects (`*ChatUser`) live in a heap indexed by pointer; the room's
  `users` map holds pointers, exactly as the Go map holds `*ChatUser`.
* A Go `map[string]*ChatUser` is an association list with one entry per key;
  `range` over the map visits the entries in an order chosen by the runtime,
  which is a parameter (`RangeOrder`) of every function that ranges.
* A send on a channel is recorded at its receiver: `cu.outgoing <- msg` appends
  `msg` to the session's log of lines handed to its write loop, and a send on
  `joins` / `incoming` / `disconnects` is the `Intent` the room loop receives.
-/

namespace Chat

/-! ## Data model -/

/-- Address of a `ChatUser` object (`*ChatUser`, never nil: `NewChatUser` allocates). -/
abbrev Ptr := Nat

/-- The `net.Conn` of a session, reduced to what the program does with it here:
`closeCalls` counts the calls of `conn.Close()`. -/
structure Conn where
  closeCalls : Nat
deriving DecidableEq, Repr

/-- The struct `ChatUser`. `outgoing` is the sequence of lines sent on the
`outgoing` channel, oldest first. -/
structure ChatUser where
  conn : Conn
  disconnect : Bool
  username : String
  outgoing : List String
deriving DecidableEq, Repr

/-- The heap of session objects. -/
abbrev Heap := Ptr → ChatUser

/-- A Go `map[string]*ChatUser`: its entries. -/
abbrev UserMap := List (String × Ptr)

/-- The struct `ChatRoom` (the three channels are represented by `Intent`). -/
structure ChatRoom where
  users : UserMap
deriving DecidableEq, Repr

/-- What the room loop receives from one of its three channels. -/
inductive Intent where
  | joins (user : Ptr)
  | incoming (msg : String)
  | disconnects (username : String)
deriving DecidableEq, Repr

/-- The program state the room loop works on: the room and the sessions. -/
structure World where
  cr : ChatRoom
  heap : Heap

/-- The order in which one `range cr.users` visits the entries of the map. -/
abbrev RangeOrder := UserMap → UserMap

/-- A `range` visits every entry of the map exactly once. -/
def IsRangeOrder (visit : RangeOrder) : Prop := ∀ m : UserMap, (visit m).Perm m

/-! ## Go map operations -/

/-- The keys of the map. -/
def mapKeys (m : UserMap) : List String := m.map Prod.fst

/-- The sessions held by the map. -/
def mapVals (m : UserMap) : List Ptr := m.map Prod.snd

/-- The lookup `m[k]`: `none` stands for the nil pointer of a missing key. -/
def mapGet : UserMap → String → Option Ptr
  | [], _ => none
  | (k1, v) :: m, k => if k1 = k then some v else mapGet m k

/-- The assignment `m[k] = v`. -/
def mapSet : UserMap → String → Ptr → UserMap
  | [], k, v => [(k, v)]
  | (k1, v1) :: m, k, v => if k1 = k then (k, v) :: m else (k1, v1) :: mapSet m k v

/-- The builtin `delete(m, k)`. -/
def mapDelete (m : UserMap) (k : String) : UserMap := m.filter (fun e => e.1 ≠ k)

/-! ## Sessions -/

/-- The call `conn.Close()`. -/
def Conn.Close (c : Conn) : Conn := { closeCalls := c.closeCalls + 1 }

/-- `NewChatUser` followed by the assignment of the name in `Login`. -/
def NewChatUser (username : String) : ChatUser :=
  { conn := { closeCalls := 0 }, disconnect := false, username := username, outgoing := [] }

/-- `ChatUser.Send`: `cu.outgoing <- msg`. -/
def ChatUser.Send (cu : ChatUser) (msg : String) : ChatUser :=
  { cu with outgoing := cu.outgoing ++ [msg] }

/-- `ChatUser.Close`: `cu.disconnect = true; cu.conn.Close()`. -/
def ChatUser.Close (cu : ChatUser) : ChatUser :=
  { cu with disconnect := true, conn := cu.conn.Close }

/-- `ChatUser.WriteString`: the bytes `msg` are appended to the wire, unchanged. -/
def WriteString (wire : String) (msg : String) : String := wire ++ msg

/-- `ChatUser.WriteOutgoingMessages`: every line received from `outgoing` is
written with `WriteString`, in the order received. -/
def WriteOutgoingMessages (received : List String) : String :=
  received.foldl WriteString ""

/-- An `error` value of Go. -/
abbrev GoError := String

/-- The outcome of one pass of a `for` body: go round again, or `break`. -/
inductive Ctl where
  | next
  | stop
deriving DecidableEq, Repr

/-- `ChatRoom.Logout`: `cr.disconnects <- username`. -/
def ChatRoom.Logout (username : String) : Intent := Intent.disconnects username

/-- One pass of the `for` body of `ChatUser.ReadIncomingMessages`, after
`cu.ReadLine()` returned `(msg, err)`: the intents sent to the room, in order,
and whether the loop goes on. -/
def ReadIncomingMessages_body (cu : ChatUser) (msg : String) (err : Option GoError) :
    List Intent × Ctl :=
  if cu.disconnect then ([], Ctl.stop)
  else if err ≠ none then ([ChatRoom.Logout cu.username], Ctl.stop)
  else if msg ≠ "" then ([Intent.incoming ("[" ++ cu.username ++ "]: " ++ msg ++ "\n")], Ctl.next)
  else ([], Ctl.next)

/-! ## The room -/

/-- `NewChatRoom`: the users map is empty. -/
def NewChatRoom : ChatRoom := { users := [] }

/-- The statement `user.Send(msg)` on the object at `user`. -/
def sendTo (msg : String) (heap : Heap) (user : Ptr) : Heap :=
  Function.update heap user ((heap user).Send msg)

/-- `ChatRoom.Broadcast`: `for _, user := range cr.users { user.Send(msg) }`. -/
def ChatRoom.Broadcast (visit : RangeOrder) (cr : ChatRoom) (msg : String) (heap : Heap) : Heap :=
  (visit cr.users).foldl (fun h e => sendTo msg h e.2) heap

/-- One pass of the `for`/`select` body of `ChatRoom.ListenForMessages`, for the
value received and the order in which the `range` of `Broadcast` runs. -/
def ListenForMessages_body (visit : RangeOrder) (w : World) : Intent → World
  | Intent.disconnects username =>
    match mapGet w.cr.users username with
    | some user =>
      let heap1 := Function.update w.heap user (w.heap user).Close
      let cr1 : ChatRoom := { users := mapDelete w.cr.users username }
      { cr := cr1, heap := cr1.Broadcast visit ("*** " ++ username ++ " has disconnected") heap1 }
    | none => w
  | Intent.incoming msg => { cr := w.cr, heap := w.cr.Broadcast visit msg w.heap }
  | Intent.joins user =>
    let cr1 : ChatRoom := { users := mapSet w.cr.users (w.heap user).username user }
    { cr := cr1, heap := cr1.Broadcast visit ("*** " ++ (w.heap user).username ++ " has joined") w.heap }

/-- One pass of the room loop: the value received and the order of the `range`. -/
structure Pass where
  visit : RangeOrder
  intent : Intent

/-- The room loop run over a finite sequence of passes. -/
def ListenForMessages (passes : List Pass) (w : World) : World :=
  passes.foldl (fun w p => ListenForMessages_body p.visit w p.intent) w

/-- Every entry of the map is filed under the name of its session, one entry per key. -/
def WellFormed (w : World) : Prop :=
  (mapKeys w.cr.users).Nodup ∧ ∀ e ∈ w.cr.users, (w.heap e.2).username = e.1

instance (w : World) : Decidable (WellFormed w) := by
  unfold WellFormed; infer_instance

/-! ## Scenarios and concrete sessions -/

/-- A heap in which sessions 0 and 1 are both named alice and session 2 is bob. -/
def heapEx : Heap := fun p =>
  if p = 0 then NewChatUser "alice" else if p = 1 then NewChatUser "alice" else NewChatUser "bob"

/-- A room holding alice (session 0) and bob (session 2). -/
def roomEx : World := ⟨{ users := [("alice", 0), ("bob", 2)] }, heapEx⟩

/-- The passes of the room loop that receive the given lines on `incoming`. -/
def incomingPasses (lines : List (RangeOrder × String)) : List Pass :=
  lines.map (fun it => Pass.mk it.1 (Intent.incoming it.2))

/-- The room after the room loop applied the join of `s1` and then the join of `s2`. -/
def afterTwoJoins (v1 v2 : RangeOrder) (w : World) (s1 s2 : Ptr) : World :=
  ListenForMessages [Pass.mk v1 (Intent.joins s1), Pass.mk v2 (Intent.joins s2)] w

/-- Two lines of alice, the first ranged in map order and the second in reverse. -/
def linesEx : List (RangeOrder × String) :=
  [(id, "[alice]: hello\n"), (List.reverse, "[alice]: bye\n")]

/-! ## Map lemmas -/

theorem mapGet_mapSet_self (m : UserMap) (k : String) (v : Ptr) :
    mapGet (mapSet m k v) k = some v := by
  induction m with
  | nil => simp [mapSet, mapGet]
  | cons e m ih =>
    obtain ⟨k1, v1⟩ := e
    by_cases h : k1 = k
    · simp [mapSet, mapGet, h]
    · simp [mapSet, mapGet, h, ih]

theorem mapGet_mapSet_ne (m : UserMap) (k k2 : String) (v : Ptr) (hne : k2 ≠ k) :
    mapGet (mapSet m k v) k2 = mapGet m k2 := by
  induction m with
  | nil => simp [mapSet, mapGet, Ne.symm hne]
  | cons e m ih =>
    obtain ⟨k1, v1⟩ := e
    by_cases h : k1 = k
    · subst h
      simp [mapSet, mapGet, Ne.symm hne]
    · simp [mapSet, mapGet, h, ih]

theorem mapGet_mapDelete_self (m : UserMap) (k : String) : mapGet (mapDelete m k) k = none := by
  induction m with
  | nil => simp [mapDelete, mapGet]
  | cons e m ih =>
    obtain ⟨k1, v1⟩ := e
    by_cases h : k1 = k
    · simpa [mapDelete, h] using ih
    · simpa [mapDelete, h, mapGet] using ih

theorem mapGet_mapDelete_ne (m : UserMap) (k k2 : String) (hne : k2 ≠ k) :
    mapGet (mapDelete m k) k2 = mapGet m k2 := by
  induction m with
  | nil => simp [mapDelete, mapGet]
  | cons e m ih =>
    obtain ⟨k1, v1⟩ := e
    by_cases h : k1 = k
    · subst h
      simpa [mapDelete, mapGet, Ne.symm hne] using ih
    · by_cases h2 : k1 = k2
      · subst h2
        simp [mapDelete, h, mapGet]
      · simpa [mapDelete, h, mapGet, h2] using ih

theorem mapGet_isSome_iff (m : UserMap) (k : String) :
    (mapGet m k).isSome = true ↔ k ∈ mapKeys m := by
  induction m with
  | nil => simp [mapGet, mapKeys]
  | cons e m ih =>
    obtain ⟨k1, v1⟩ := e
    by_cases h : k1 = k
    · simp [mapGet, mapKeys, h]
    · have h2 : ¬ k = k1 := fun x => h x.symm
      simpa [mapGet, mapKeys, h, h2] using ih

theorem mem_of_mapGet (m : UserMap) (k : String) (v : Ptr) (h : mapGet m k = some v) :
    (k, v) ∈ m := by
  induction m with
  | nil => simp [mapGet] at h
  | cons e m ih =>
    obtain ⟨k1, v1⟩ := e
    by_cases h1 : k1 = k
    · simp [mapGet, h1] at h
      simp [h1, h]
    · simp [mapGet, h1] at h
      exact List.mem_cons_of_mem _ (ih h)

theorem mem_mapSet (m : UserMap) (k : String) (v : Ptr) (e : String × Ptr)
    (h : e ∈ mapSet m k v) : e = (k, v) ∨ e ∈ m := by
  induction m with
  | nil => simpa [mapSet] using h
  | cons e1 m ih =>
    obtain ⟨k1, v1⟩ := e1
    by_cases h1 : k1 = k
    · simp only [mapSet, h1, if_true, List.mem_cons] at h
      rcases h with h | h
      · exact Or.inl h
      · exact Or.inr (List.mem_cons_of_mem _ h)
    · simp only [mapSet, h1, if_false, List.mem_cons] at h
      rcases h with h | h
      · exact Or.inr (h ▸ List.mem_cons_self _ _)
      · rcases ih h with h2 | h2
        · exact Or.inl h2
        · exact Or.inr (List.mem_cons_of_mem _ h2)

theorem mapKeys_mapSet (m : UserMap) (k : String) (v : Ptr) :
    mapKeys (mapSet m k v) = if k ∈ mapKeys m then mapKeys m else mapKeys m ++ [k] := by
  induction m with
  | nil => simp [mapSet, mapKeys]
  | cons e1 m ih =>
    obtain ⟨k1, v1⟩ := e1
    by_cases h1 : k1 = k
    · simp [mapSet, mapKeys, h1]
    · have h2 : ¬ k = k1 := fun x => h1 x.symm
      simp only [mapKeys] at ih
      simp only [mapSet, h1, if_false, mapKeys, List.map_cons, ih, List.mem_cons, h2, false_or]
      split <;> simp

theorem nodup_mapKeys_mapSet (m : UserMap) (k : String) (v : Ptr) (h : (mapKeys m).Nodup) :
    (mapKeys (mapSet m k v)).Nodup := by
  rw [mapKeys_mapSet]
  split
  · exact h
  · rename_i hk
    exact List.Nodup.append h (List.nodup_singleton k) (by simpa using hk)

theorem length_mapSet_of_mem (m : UserMap) (k : String) (v : Ptr) (h : k ∈ mapKeys m) :
    (mapSet m k v).length = m.length := by
  have h1 := congrArg List.length (mapKeys_mapSet m k v)
  rw [if_pos h] at h1
  simpa [mapKeys] using h1

theorem nodup_mapKeys_mapDelete (m : UserMap) (k : String) (h : (mapKeys m).Nodup) :
    (mapKeys (mapDelete m k)).Nodup :=
  List.Nodup.sublist (List.Sublist.map _ (List.filter_sublist m)) h

theorem mem_mapDelete (m : UserMap) (k : String) (e : String × Ptr) :
    e ∈ mapDelete m k ↔ e ∈ m ∧ e.1 ≠ k := by
  simp [mapDelete]

/-! ## Heap lemmas: what `Send`, `Close` and `Broadcast` change -/

/-- The `range` of `Broadcast` leaves a session it does not visit as it was. -/
theorem sendAll_not_mem (msg : String) (l : UserMap) (heap : Heap) (p : Ptr)
    (hp : p ∉ mapVals l) : (l.foldl (fun h e => sendTo msg h e.2) heap) p = heap p := by
  induction l generalizing heap with
  | nil => rfl
  | cons e l ih =>
    simp only [mapVals, List.map_cons, List.mem_cons, not_or] at hp
    rw [List.foldl_cons, ih _ (by simpa [mapVals] using hp.2)]
    simp [sendTo, Function.update_noteq hp.1]

/-- The `range` of `Broadcast` sends once to a session it visits once. -/
theorem sendAll_mem (msg : String) (l : UserMap) (heap : Heap) (p : Ptr)
    (hnd : (mapVals l).Nodup) (hp : p ∈ mapVals l) :
    (l.foldl (fun h e => sendTo msg h e.2) heap) p = (heap p).Send msg := by
  induction l generalizing heap with
  | nil => simp [mapVals] at hp
  | cons e l ih =>
    simp only [mapVals, List.map_cons, List.nodup_cons] at hnd
    simp only [mapVals, List.map_cons, List.mem_cons] at hp
    rw [List.foldl_cons]
    rcases hp with hp | hp
    · subst hp
      rw [sendAll_not_mem msg l _ _ (by simpa [mapVals] using hnd.1)]
      simp [sendTo]
    · have hne : p ≠ e.2 := fun x => hnd.1 (x ▸ hp)
      rw [ih _ hnd.2 (by simpa [mapVals] using hp)]
      simp [sendTo, Function.update_noteq hne]

theorem Broadcast_mem (visit : RangeOrder) (hv : IsRangeOrder visit) (cr : ChatRoom)
    (msg : String) (heap : Heap) (p : Ptr) (hnd : (mapVals cr.users).Nodup)
    (hp : p ∈ mapVals cr.users) : cr.Broadcast visit msg heap p = (heap p).Send msg := by
  have hperm : (mapVals (visit cr.users)).Perm (mapVals cr.users) := List.Perm.map _ (hv cr.users)
  exact sendAll_mem msg _ heap p (hperm.nodup_iff.mpr hnd) (hperm.mem_iff.mpr hp)

theorem Broadcast_not_mem (visit : RangeOrder) (hv : IsRangeOrder visit) (cr : ChatRoom)
    (msg : String) (heap : Heap) (p : Ptr)
    (hp : p ∉ mapVals cr.users) : cr.Broadcast visit msg heap p = heap p := by
  have hperm : (mapVals (visit cr.users)).Perm (mapVals cr.users) := List.Perm.map _ (hv cr.users)
  exact sendAll_not_mem msg _ heap p (fun h => hp (hperm.mem_iff.mp h))

/-- Whatever the `range` visits, `Broadcast` touches only the `outgoing` logs. -/
theorem Broadcast_frame (visit : RangeOrder) (cr : ChatRoom) (msg : String) (heap : Heap)
    (p : Ptr) :
    (cr.Broadcast visit msg heap p).username = (heap p).username ∧
    (cr.Broadcast visit msg heap p).disconnect = (heap p).disconnect ∧
    (cr.Broadcast visit msg heap p).conn = (heap p).conn := by
  unfold ChatRoom.Broadcast
  generalize visit cr.users = l
  induction l generalizing heap with
  | nil => simp
  | cons e l ih =>
    rw [List.foldl_cons]
    have h := ih (sendTo msg heap e.2)
    by_cases hp : p = e.2
    · subst hp
      simpa [sendTo, ChatUser.Send] using h
    · simpa [sendTo, Function.update_noteq hp] using h

/-! ## Invariants of the room loop -/

theorem ListenForMessages_nil (w : World) : ListenForMessages [] w = w := rfl

theorem ListenForMessages_cons (p : Pass) (passes : List Pass) (w : World) :
    ListenForMessages (p :: passes) w
      = ListenForMessages passes (ListenForMessages_body p.visit w p.intent) := rfl

theorem ListenForMessages_concat (passes : List Pass) (p : Pass) (w : World) :
    ListenForMessages (passes ++ [p]) w
      = ListenForMessages_body p.visit (ListenForMessages passes w) p.intent := by
  simp [ListenForMessages, List.foldl_append]

theorem body_disconnects_none (visit : RangeOrder) (w : World) (username : String)
    (h : mapGet w.cr.users username = none) :
    ListenForMessages_body visit w (Intent.disconnects username) = w := by
  simp [ListenForMessages_body, h]

theorem body_disconnects_some (visit : RangeOrder) (w : World) (username : String) (user : Ptr)
    (h : mapGet w.cr.users username = some user) :
    ListenForMessages_body visit w (Intent.disconnects username) =
      { cr := { users := mapDelete w.cr.users username },
        heap := ChatRoom.Broadcast visit { users := mapDelete w.cr.users username }
          ("*** " ++ username ++ " has disconnected")
          (Function.update w.heap user (w.heap user).Close) } := by
  simp [ListenForMessages_body, h]

/-- No pass of the room loop changes the name of a session. -/
theorem username_body (visit : RangeOrder) (w : World) (i : Intent) (p : Ptr) :
    ((ListenForMessages_body visit w i).heap p).username = (w.heap p).username := by
  cases i with
  | joins user => exact (Broadcast_frame visit _ _ _ p).1
  | incoming msg => exact (Broadcast_frame visit _ _ _ p).1
  | disconnects username =>
    cases hg : mapGet w.cr.users username with
    | none => rw [body_disconnects_none _ _ _ hg]
    | some user =>
      rw [body_disconnects_some _ _ _ _ hg]
      simp only
      rw [(Broadcast_frame visit _ _ _ p).1]
      by_cases hp : p = user
      · subst hp
        simp [ChatUser.Close]
      · simp [Function.update_noteq hp]

theorem username_ListenForMessages (passes : List Pass) (w : World) (p : Ptr) :
    ((ListenForMessages passes w).heap p).username = (w.heap p).username := by
  induction passes generalizing w with
  | nil => rfl
  | cons a l ih => rw [ListenForMessages_cons, ih, username_body]

theorem nodup_mapVals_of_wellFormed (w : World) (h : WellFormed w) :
    (mapVals w.cr.users).Nodup := by
  have hnd : w.cr.users.Nodup := List.Nodup.of_map _ h.1
  refine List.Nodup.map_on ?_ hnd
  intro a ha b hb hab
  have hk : a.1 = b.1 := by rw [← h.2 a ha, ← h.2 b hb, hab]
  exact Prod.ext hk hab

theorem wellFormed_new (heap : Heap) : WellFormed ⟨NewChatRoom, heap⟩ := by
  simp [WellFormed, NewChatRoom, mapKeys]

/-- Every pass of the room loop keeps the map well formed. -/
theorem wellFormed_body (visit : RangeOrder) (w : World) (i : Intent) (h : WellFormed w) :
    WellFormed (ListenForMessages_body visit w i) := by
  refine ⟨?_, ?_⟩
  · cases i with
    | joins user => exact nodup_mapKeys_mapSet _ _ _ h.1
    | incoming msg => exact h.1
    | disconnects username =>
      cases hg : mapGet w.cr.users username with
      | none =>
        rw [body_disconnects_none _ _ _ hg]
        exact h.1
      | some user =>
        rw [body_disconnects_some _ _ _ _ hg]
        exact nodup_mapKeys_mapDelete _ _ h.1
  · intro e he
    rw [username_body]
    cases i with
    | joins user =>
      rcases mem_mapSet _ _ _ _ he with h1 | h1
      · rw [h1]
      · exact h.2 e h1
    | incoming msg => exact h.2 e he
    | disconnects username =>
      cases hg : mapGet w.cr.users username with
      | none =>
        rw [body_disconnects_none _ _ _ hg] at he
        exact h.2 e he
      | some user =>
        rw [body_disconnects_some _ _ _ _ hg] at he
        exact h.2 e ((mem_mapDelete _ _ _).mp he).1

theorem wellFormed_ListenForMessages (passes : List Pass) (w : World) (h : WellFormed w) :
    WellFormed (ListenForMessages passes w) := by
  induction passes generalizing w with
  | nil => exact h
  | cons a l ih => exact ih _ (wellFormed_body _ _ _ h)

/-- Every state the room loop reaches from `NewChatRoom` is well formed. -/
theorem wellFormed_reachable (heap0 : Heap) (passes : List Pass) :
    WellFormed (ListenForMessages passes ⟨NewChatRoom, heap0⟩) :=
  wellFormed_ListenForMessages passes _ (wellFormed_new heap0)

/-- The keys after one pass of the room loop. -/
theorem mem_mapKeys_body (visit : RangeOrder) (w : World) (i : Intent) (n : String) :
    n ∈ mapKeys (ListenForMessages_body visit w i).cr.users ↔
      (∃ s, i = Intent.joins s ∧ (w.heap s).username = n) ∨
      (n ∈ mapKeys w.cr.users ∧ i ≠ Intent.disconnects n) := by
  cases i with
  | joins user =>
    simp only [ListenForMessages_body, mapKeys_mapSet]
    by_cases hk : (w.heap user).username ∈ mapKeys w.cr.users
    · rw [if_pos hk]
      constructor
      · intro h
        exact Or.inr ⟨h, by simp⟩
      · rintro (⟨s, hs, hn⟩ | ⟨h, _⟩)
        · cases hs
          exact hn ▸ hk
        · exact h
    · rw [if_neg hk]
      constructor
      · intro h
        rcases List.mem_append.mp h with h | h
        · exact Or.inr ⟨h, by simp⟩
        · exact Or.inl ⟨user, rfl, (List.mem_singleton.mp h).symm⟩
      · rintro (⟨s, hs, hn⟩ | ⟨h, _⟩)
        · cases hs
          exact List.mem_append.mpr (Or.inr (List.mem_singleton.mpr hn.symm))
        · exact List.mem_append.mpr (Or.inl h)
  | incoming msg =>
    simp [ListenForMessages_body]
  | disconnects username =>
    have hrhs : ((∃ s, Intent.disconnects username = Intent.joins s ∧ (w.heap s).username = n) ∨
        (n ∈ mapKeys w.cr.users ∧ Intent.disconnects username ≠ Intent.disconnects n)) ↔
        (n ∈ mapKeys w.cr.users ∧ username ≠ n) := by simp
    rw [hrhs]
    cases hg : mapGet w.cr.users username with
    | none =>
      rw [body_disconnects_none _ _ _ hg]
      have hno : username ∉ mapKeys w.cr.users := by
        rw [← mapGet_isSome_iff, hg]; simp
      constructor
      · intro h
        exact ⟨h, fun x => hno (x ▸ h)⟩
      · exact fun h => h.1
    | some user =>
      rw [body_disconnects_some _ _ _ _ hg]
      simp only
      rw [← mapGet_isSome_iff, ← mapGet_isSome_iff]
      by_cases hn : n = username
      · subst hn
        simp [mapGet_mapDelete_self]
      · rw [mapGet_mapDelete_ne _ _ _ hn]
        simp [Ne.symm hn]

/-! ## The membership table -/

/-- C1. Starting from `NewChatRoom`, after the room loop has applied any finite
sequence of intents, a name is a key of the users map exactly when the sequence
holds a join of a session of that name with no logout of the name after it. -/
theorem membership_after_run (heap0 : Heap) (passes : List Pass) (n : String) :
    n ∈ mapKeys (ListenForMessages passes ⟨NewChatRoom, heap0⟩).cr.users ↔
      ∃ pre s visit post, passes = pre ++ Pass.mk visit (Intent.joins s) :: post ∧
        (heap0 s).username = n ∧ ∀ q ∈ post, q.intent ≠ Intent.disconnects n := by
  induction passes using List.reverseRecOn with
  | nil => simp [ListenForMessages_nil, NewChatRoom, mapKeys]
  | append_singleton l a ih =>
    rw [ListenForMessages_concat, mem_mapKeys_body, ih]
    constructor
    · rintro (⟨s, hs, hn⟩ | ⟨⟨pre, s, visit, post, hl, hn, hpost⟩, ha⟩)
      · rw [username_ListenForMessages] at hn
        refine ⟨l, s, a.visit, [], ?_, hn, by simp⟩
        obtain ⟨av, ai⟩ := a
        simp only at hs
        rw [hs]
      · refine ⟨pre, s, visit, post ++ [a], by simp [hl], hn, ?_⟩
        intro q hq
        rcases List.mem_append.mp hq with hq | hq
        · exact hpost q hq
        · rw [List.mem_singleton.mp hq]
          exact ha
    · rintro ⟨pre, s, visit, post, hl, hn, hpost⟩
      rcases List.eq_nil_or_concat post with hp | ⟨post1, b, hp⟩
      · subst hp
        have h2 := List.append_inj' hl (by simp)
        left
        refine ⟨s, ?_, ?_⟩
        · have h3 : a = Pass.mk visit (Intent.joins s) := by simpa using h2.2
          rw [h3]
        · rw [username_ListenForMessages]
          exact hn
      · rw [List.concat_eq_append] at hp
        subst hp
        have h1 : l ++ [a] = (pre ++ Pass.mk visit (Intent.joins s) :: post1) ++ [b] := by
          simpa using hl
        have h2 := List.append_inj' h1 (by simp)
        have h3 : a = b := by simpa using h2.2
        right
        refine ⟨⟨pre, s, visit, post1, h2.1, hn, ?_⟩, ?_⟩
        · intro q hq
          exact hpost q (List.mem_append.mpr (Or.inl hq))
        · rw [h3]
          exact hpost b (List.mem_append.mpr (Or.inr (List.mem_singleton.mpr rfl)))

/-! ## Join -/

theorem isRangeOrder_reverse : IsRangeOrder List.reverse := fun m => List.reverse_perm m

theorem isRangeOrder_id : IsRangeOrder id := fun m => List.Perm.refl m

/-- C2. In a well-formed room, the join of session `s` binds the name of `s` to
`s` and leaves every other key as it was; the join notice is then appended once
to the outgoing log of every session of the resulting map, `s` among them, and
no session outside the map is touched. -/
theorem join_effect (visit : RangeOrder) (w : World) (s : Ptr)
    (hv : IsRangeOrder visit) (hwf : WellFormed w) :
    mapGet (ListenForMessages_body visit w (Intent.joins s)).cr.users (w.heap s).username = some s ∧
    (∀ k, k ≠ (w.heap s).username →
      mapGet (ListenForMessages_body visit w (Intent.joins s)).cr.users k = mapGet w.cr.users k) ∧
    s ∈ mapVals (ListenForMessages_body visit w (Intent.joins s)).cr.users ∧
    (∀ p, p ∈ mapVals (ListenForMessages_body visit w (Intent.joins s)).cr.users →
      (ListenForMessages_body visit w (Intent.joins s)).heap p =
        { w.heap p with
          outgoing := (w.heap p).outgoing ++ ["*** " ++ (w.heap s).username ++ " has joined"] }) ∧
    (∀ p, p ∉ mapVals (ListenForMessages_body visit w (Intent.joins s)).cr.users →
      (ListenForMessages_body visit w (Intent.joins s)).heap p = w.heap p) := by
  have hwf1 := wellFormed_body visit w (Intent.joins s) hwf
  have hnd := nodup_mapVals_of_wellFormed _ hwf1
  have hget : mapGet (mapSet w.cr.users (w.heap s).username s) (w.heap s).username = some s :=
    mapGet_mapSet_self _ _ _
  refine ⟨hget, fun k hk => mapGet_mapSet_ne _ _ _ _ hk, ?_, ?_, ?_⟩
  · exact List.mem_map.mpr ⟨_, mem_of_mapGet _ _ _ hget, rfl⟩
  · intro p hp
    exact Broadcast_mem visit hv _ _ _ p hnd hp
  · intro p hp
    exact Broadcast_not_mem visit hv _ _ _ p hp

/-- The join of a second alice (session 1) into the room of alice and bob. -/
theorem join_effect_witness :
    IsRangeOrder List.reverse ∧ WellFormed roomEx ∧
    mapGet (ListenForMessages_body List.reverse roomEx (Intent.joins 1)).cr.users
      (roomEx.heap 1).username = some 1 ∧
    (∀ k, k ≠ (roomEx.heap 1).username →
      mapGet (ListenForMessages_body List.reverse roomEx (Intent.joins 1)).cr.users k
        = mapGet roomEx.cr.users k) ∧
    1 ∈ mapVals (ListenForMessages_body List.reverse roomEx (Intent.joins 1)).cr.users ∧
    (∀ p, p ∈ mapVals (ListenForMessages_body List.reverse roomEx (Intent.joins 1)).cr.users →
      (ListenForMessages_body List.reverse roomEx (Intent.joins 1)).heap p =
        { roomEx.heap p with
          outgoing := (roomEx.heap p).outgoing ++ ["*** " ++ (roomEx.heap 1).username ++ " has joined"] }) ∧
    (∀ p, p ∉ mapVals (ListenForMessages_body List.reverse roomEx (Intent.joins 1)).cr.users →
      (ListenForMessages_body List.reverse roomEx (Intent.joins 1)).heap p = roomEx.heap p) :=
  ⟨isRangeOrder_reverse, by decide,
    join_effect List.reverse roomEx 1 isRangeOrder_reverse (by decide)⟩

/-- C8. When the name `n` is bound to `s1` and a session `s2` of the same name
joins (any session of that name, so every session other than `s1` too), the
join goes through: `n` is bound to `s2`, the map has as many entries as before,
and `s1` is not closed (its disconnect flag and its connection, with the count
of `Close` calls, are as before). -/
theorem duplicate_join_overwrites (visit : RangeOrder) (w : World) (n : String) (s1 s2 : Ptr)
    (h1 : mapGet w.cr.users n = some s1) (hname : (w.heap s2).username = n) :
    mapGet (ListenForMessages_body visit w (Intent.joins s2)).cr.users n = some s2 ∧
    (ListenForMessages_body visit w (Intent.joins s2)).cr.users.length = w.cr.users.length ∧
    ((ListenForMessages_body visit w (Intent.joins s2)).heap s1).disconnect
      = (w.heap s1).disconnect ∧
    ((ListenForMessages_body visit w (Intent.joins s2)).heap s1).conn = (w.heap s1).conn := by
  have hk : n ∈ mapKeys w.cr.users := by
    rw [← mapGet_isSome_iff, h1]; rfl
  have hf := Broadcast_frame visit
    { users := mapSet w.cr.users (w.heap s2).username s2 }
    ("*** " ++ (w.heap s2).username ++ " has joined") w.heap s1
  refine ⟨?_, ?_, hf.2.1, hf.2.2⟩
  · simp only [ListenForMessages_body, hname]
    exact mapGet_mapSet_self _ _ _
  · simp only [ListenForMessages_body, hname]
    exact length_mapSet_of_mem _ _ _ hk

/-- Session 1, also named alice, joins the room in which alice is session 0. -/
theorem duplicate_join_overwrites_witness :
    mapGet roomEx.cr.users "alice" = some 0 ∧ (1 : Ptr) ≠ 0 ∧ (roomEx.heap 1).username = "alice" ∧
    mapGet (ListenForMessages_body id roomEx (Intent.joins 1)).cr.users "alice" = some 1 ∧
    (ListenForMessages_body id roomEx (Intent.joins 1)).cr.users.length = roomEx.cr.users.length ∧
    ((ListenForMessages_body id roomEx (Intent.joins 1)).heap 0).disconnect
      = (roomEx.heap 0).disconnect ∧
    ((ListenForMessages_body id roomEx (Intent.joins 1)).heap 0).conn = (roomEx.heap 0).conn :=
  ⟨by decide, by decide, by decide,
    duplicate_join_overwrites id roomEx "alice" 0 1 (by decide) (by decide)⟩

/-! ## Logout -/

/-- C3. In a well-formed room, the logout of a name `n` that is a key closes the
session `s` filed under `n` (flag set, one more `Close` of its connection),
deletes the key `n` and no other, appends the disconnect notice once to the
outgoing log of every remaining session, and sends nothing to `s`. -/
theorem logout_effect (visit : RangeOrder) (w : World) (n : String)
    (hv : IsRangeOrder visit) (hwf : WellFormed w) (hn : n ∈ mapKeys w.cr.users) :
    ∃ s, mapGet w.cr.users n = some s ∧
      (ListenForMessages_body visit w (Intent.disconnects n)).heap s =
        { w.heap s with
          disconnect := true, conn := { closeCalls := (w.heap s).conn.closeCalls + 1 } } ∧
      mapGet (ListenForMessages_body visit w (Intent.disconnects n)).cr.users n = none ∧
      (∀ k, k ≠ n →
        mapGet (ListenForMessages_body visit w (Intent.disconnects n)).cr.users k
          = mapGet w.cr.users k) ∧
      s ∉ mapVals (ListenForMessages_body visit w (Intent.disconnects n)).cr.users ∧
      (∀ p, p ∈ mapVals (ListenForMessages_body visit w (Intent.disconnects n)).cr.users →
        (ListenForMessages_body visit w (Intent.disconnects n)).heap p =
          { w.heap p with
            outgoing := (w.heap p).outgoing ++ ["*** " ++ n ++ " has disconnected"] }) ∧
      (∀ p, p ∉ mapVals (ListenForMessages_body visit w (Intent.disconnects n)).cr.users →
        p ≠ s → (ListenForMessages_body visit w (Intent.disconnects n)).heap p = w.heap p) := by
  obtain ⟨s, hs⟩ := Option.isSome_iff_exists.mp ((mapGet_isSome_iff _ _).mpr hn)
  have hwf1 := wellFormed_body visit w (Intent.disconnects n) hwf
  have hnd := nodup_mapVals_of_wellFormed _ hwf1
  rw [body_disconnects_some visit w n s hs] at hnd ⊢
  have hsn : (w.heap s).username = n := hwf.2 (n, s) (mem_of_mapGet _ _ _ hs)
  have hnot : s ∉ mapVals (mapDelete w.cr.users n) := by
    intro hmem
    obtain ⟨e, he, hes⟩ := List.mem_map.mp hmem
    have he2 := (mem_mapDelete _ _ _).mp he
    have h3 := hwf.2 e he2.1
    rw [hes, hsn] at h3
    exact he2.2 h3.symm
  refine ⟨s, hs, ?_, mapGet_mapDelete_self _ _, fun k hk => mapGet_mapDelete_ne _ _ _ hk,
    hnot, ?_, ?_⟩
  · have h := Broadcast_not_mem visit hv { users := mapDelete w.cr.users n }
      ("*** " ++ n ++ " has disconnected") (Function.update w.heap s (w.heap s).Close) s hnot
    rw [Function.update_same] at h
    exact h
  · intro p hp
    have hps : p ≠ s := fun x => hnot (x ▸ hp)
    have h := Broadcast_mem visit hv { users := mapDelete w.cr.users n }
      ("*** " ++ n ++ " has disconnected") (Function.update w.heap s (w.heap s).Close) p hnd hp
    rw [Function.update_noteq hps] at h
    exact h
  · intro p hp hps
    have h := Broadcast_not_mem visit hv { users := mapDelete w.cr.users n }
      ("*** " ++ n ++ " has disconnected") (Function.update w.heap s (w.heap s).Close) p hp
    rw [Function.update_noteq hps] at h
    exact h

/-- The logout of bob from the room of alice and bob. -/
theorem logout_effect_witness :
    IsRangeOrder List.reverse ∧ WellFormed roomEx ∧ "bob" ∈ mapKeys roomEx.cr.users ∧
    ∃ s, mapGet roomEx.cr.users "bob" = some s ∧
      (ListenForMessages_body List.reverse roomEx (Intent.disconnects "bob")).heap s =
        { roomEx.heap s with
          disconnect := true, conn := { closeCalls := (roomEx.heap s).conn.closeCalls + 1 } } ∧
      mapGet (ListenForMessages_body List.reverse roomEx (Intent.disconnects "bob")).cr.users "bob"
        = none ∧
      (∀ k, k ≠ "bob" →
        mapGet (ListenForMessages_body List.reverse roomEx (Intent.disconnects "bob")).cr.users k
          = mapGet roomEx.cr.users k) ∧
      s ∉ mapVals (ListenForMessages_body List.reverse roomEx (Intent.disconnects "bob")).cr.users ∧
      (∀ p, p ∈ mapVals
          (ListenForMessages_body List.reverse roomEx (Intent.disconnects "bob")).cr.users →
        (ListenForMessages_body List.reverse roomEx (Intent.disconnects "bob")).heap p =
          { roomEx.heap p with
            outgoing := (roomEx.heap p).outgoing ++ ["*** " ++ "bob" ++ " has disconnected"] }) ∧
      (∀ p, p ∉ mapVals
          (ListenForMessages_body List.reverse roomEx (Intent.disconnects "bob")).cr.users →
        p ≠ s →
        (ListenForMessages_body List.reverse roomEx (Intent.disconnects "bob")).heap p
          = roomEx.heap p) :=
  ⟨isRangeOrder_reverse, by decide, by decide,
    logout_effect List.reverse roomEx "bob" isRangeOrder_reverse (by decide) (by decide)⟩

/-- C4. The logout of a name that is not a key leaves the whole state as it
was: same users map, same sessions (none closed, no outgoing log extended), and
the pass ends normally. So the second of two consecutive logouts of one name
changes nothing, whatever the room was before the first. -/
theorem logout_absent_noop (v1 v2 : RangeOrder) (w : World) (n : String) :
    (n ∉ mapKeys w.cr.users → ListenForMessages_body v1 w (Intent.disconnects n) = w) ∧
    ListenForMessages_body v2 (ListenForMessages_body v1 w (Intent.disconnects n))
        (Intent.disconnects n)
      = ListenForMessages_body v1 w (Intent.disconnects n) := by
  have key : ∀ (v : RangeOrder) (u : World), n ∉ mapKeys u.cr.users →
      ListenForMessages_body v u (Intent.disconnects n) = u := by
    intro v u hn
    apply body_disconnects_none
    cases hg : mapGet u.cr.users n with
    | none => rfl
    | some x =>
      exact absurd ((mapGet_isSome_iff _ _).mp (by rw [hg]; rfl)) hn
  refine ⟨key v1 w, key v2 _ ?_⟩
  intro hmem
  have h := (mem_mapKeys_body v1 w (Intent.disconnects n) n).mp hmem
  rcases h with ⟨s, hs, _⟩ | ⟨_, hne⟩
  · cases hs
  · exact hne rfl

/-- Carol is not in the room of alice and bob; bob is logged out twice. -/
theorem logout_absent_noop_witness :
    "carol" ∉ mapKeys roomEx.cr.users ∧
    ListenForMessages_body id roomEx (Intent.disconnects "carol") = roomEx ∧
    ListenForMessages_body List.reverse
        (ListenForMessages_body id roomEx (Intent.disconnects "bob")) (Intent.disconnects "bob")
      = ListenForMessages_body id roomEx (Intent.disconnects "bob") :=
  ⟨by decide, (logout_absent_noop id id roomEx "carol").1 (by decide),
    (logout_absent_noop id List.reverse roomEx "bob").2⟩

/-! ## The session read loop -/

/-- C5. One pass of the read loop of a session named `u`: with the disconnect
flag set it stops and sends nothing; otherwise a failed read sends one logout of
`u` and stops; otherwise an empty line sends nothing and the loop goes on;
otherwise the line `m` is sent as the one broadcast `"[" ++ u ++ "]: " ++ m ++ "\n"`
and the loop goes on. -/
theorem read_loop_policy (cu : ChatUser) (msg : String) (err : Option GoError) :
    (cu.disconnect = true → ReadIncomingMessages_body cu msg err = ([], Ctl.stop)) ∧
    (cu.disconnect = false → err ≠ none →
      ReadIncomingMessages_body cu msg err = ([Intent.disconnects cu.username], Ctl.stop)) ∧
    (cu.disconnect = false → err = none → msg = "" →
      ReadIncomingMessages_body cu msg err = ([], Ctl.next)) ∧
    (cu.disconnect = false → err = none → msg ≠ "" →
      ReadIncomingMessages_body cu msg err
        = ([Intent.incoming ("[" ++ cu.username ++ "]: " ++ msg ++ "\n")], Ctl.next)) := by
  refine ⟨?_, ?_, ?_, ?_⟩
  · intro hd
    simp [ReadIncomingMessages_body, hd]
  · intro hd he
    simp [ReadIncomingMessages_body, hd, he, ChatRoom.Logout]
  · intro hd he hm
    simp [ReadIncomingMessages_body, hd, he, hm]
  · intro hd he hm
    simp [ReadIncomingMessages_body, hd, he, hm]

/-- The four outcomes of a pass of the read loop, for a session named alice. -/
theorem read_loop_policy_witness :
    ReadIncomingMessages_body ((NewChatUser "alice").Close) "hello" none = ([], Ctl.stop) ∧
    ReadIncomingMessages_body (NewChatUser "alice") "" (some "EOF")
      = ([Intent.disconnects "alice"], Ctl.stop) ∧
    ReadIncomingMessages_body (NewChatUser "alice") "" none = ([], Ctl.next) ∧
    ReadIncomingMessages_body (NewChatUser "alice") "hello" none
      = ([Intent.incoming ("[" ++ "alice" ++ "]: " ++ "hello" ++ "\n")], Ctl.next) :=
  ⟨(read_loop_policy ((NewChatUser "alice").Close) "hello" none).1 rfl,
    (read_loop_policy (NewChatUser "alice") "" (some "EOF")).2.1 rfl (by decide),
    (read_loop_policy (NewChatUser "alice") "" none).2.2.1 rfl rfl rfl,
    (read_loop_policy (NewChatUser "alice") "hello" none).2.2.2 rfl rfl (by decide)⟩

/-! ## Broadcast -/

theorem broadcasts_delivered_aux (lines : List (RangeOrder × String)) (w : World)
    (hnd : (mapVals w.cr.users).Nodup) (hv : ∀ it ∈ lines, IsRangeOrder it.1) :
    (ListenForMessages (incomingPasses lines) w).cr = w.cr ∧
    (∀ p, p ∈ mapVals w.cr.users →
      (ListenForMessages (incomingPasses lines) w).heap p =
        { w.heap p with outgoing := (w.heap p).outgoing ++ lines.map Prod.snd }) ∧
    (∀ p, p ∉ mapVals w.cr.users →
      (ListenForMessages (incomingPasses lines) w).heap p = w.heap p) := by
  induction lines generalizing w with
  | nil => simp [incomingPasses, ListenForMessages_nil]
  | cons it lines ih =>
    have hv1 : IsRangeOrder it.1 := hv it (List.mem_cons_self _ _)
    have ih1 := ih (ListenForMessages_body it.1 w (Intent.incoming it.2)) hnd
      (fun x hx => hv x (List.mem_cons_of_mem _ hx))
    have hstep : ListenForMessages (incomingPasses (it :: lines)) w =
        ListenForMessages (incomingPasses lines)
          (ListenForMessages_body it.1 w (Intent.incoming it.2)) := rfl
    rw [hstep]
    refine ⟨ih1.1, ?_, ?_⟩
    · intro p hp
      rw [ih1.2.1 p hp]
      have h := Broadcast_mem it.1 hv1 w.cr it.2 w.heap p hnd hp
      have h2 : (ListenForMessages_body it.1 w (Intent.incoming it.2)).heap p
          = (w.heap p).Send it.2 := h
      rw [h2]
      simp [ChatUser.Send]
    · intro p hp
      rw [ih1.2.2 p hp]
      exact Broadcast_not_mem it.1 hv1 w.cr it.2 w.heap p hp

/-- C7. In a well-formed room, when the room loop applies the broadcast intents
`l1, ..., lk` in that order with nothing in between, whatever order each `range`
visits the map in, the outgoing log of every session of the users map grows by
exactly `l1, ..., lk` in that order, no session outside the map is touched, and
the users map is unchanged. -/
theorem broadcasts_delivered_in_order (lines : List (RangeOrder × String)) (w : World)
    (hwf : WellFormed w) (hv : ∀ it ∈ lines, IsRangeOrder it.1) :
    (ListenForMessages (incomingPasses lines) w).cr = w.cr ∧
    (∀ p, p ∈ mapVals w.cr.users →
      (ListenForMessages (incomingPasses lines) w).heap p =
        { w.heap p with outgoing := (w.heap p).outgoing ++ lines.map Prod.snd }) ∧
    (∀ p, p ∉ mapVals w.cr.users →
      (ListenForMessages (incomingPasses lines) w).heap p = w.heap p) :=
  broadcasts_delivered_aux lines w (nodup_mapVals_of_wellFormed w hwf) hv

theorem isRangeOrder_linesEx : ∀ it ∈ linesEx, IsRangeOrder it.1 := by
  intro it hit
  simp only [linesEx, List.mem_cons, List.mem_singleton, List.not_mem_nil, or_false] at hit
  rcases hit with h | h
  · rw [h]; exact isRangeOrder_id
  · rw [h]; exact isRangeOrder_reverse

/-- Two lines of alice broadcast to the room of alice and bob. -/
theorem broadcasts_delivered_in_order_witness :
    WellFormed roomEx ∧ (∀ it ∈ linesEx, IsRangeOrder it.1) ∧
    (ListenForMessages (incomingPasses linesEx) roomEx).cr = roomEx.cr ∧
    (∀ p, p ∈ mapVals roomEx.cr.users →
      (ListenForMessages (incomingPasses linesEx) roomEx).heap p =
        { roomEx.heap p with outgoing := (roomEx.heap p).outgoing ++ linesEx.map Prod.snd }) ∧
    (∀ p, p ∉ mapVals roomEx.cr.users →
      (ListenForMessages (incomingPasses linesEx) roomEx).heap p = roomEx.heap p) :=
  ⟨by decide, isRangeOrder_linesEx,
    broadcasts_delivered_in_order linesEx roomEx (by decide) isRangeOrder_linesEx⟩

/-! ## A superseded session and its successor -/

/-- A join changes no disconnect flag and no connection. -/
theorem joins_frame (visit : RangeOrder) (w : World) (s p : Ptr) :
    ((ListenForMessages_body visit w (Intent.joins s)).heap p).disconnect
      = (w.heap p).disconnect ∧
    ((ListenForMessages_body visit w (Intent.joins s)).heap p).conn = (w.heap p).conn :=
  (Broadcast_frame visit _ _ _ p).2

/-- C10. Two distinct sessions `s1`, `s2` of one name `n` join in that order;
the read of `s1` then fails, so its read loop submits the logout of `n`. The
room loop applies it to `s2`, the session filed under `n`: `s2` is closed (flag
set, its connection closed once), `n` is no longer a key, and `s1` is left with
its disconnect flag false and its connection untouched. -/
theorem superseded_session_evicts_successor (v1 v2 v3 : RangeOrder) (w : World) (n : String)
    (s1 s2 : Ptr) (msg : String) (err : GoError)
    (hne : s1 ≠ s2) (hn1 : (w.heap s1).username = n) (hn2 : (w.heap s2).username = n)
    (hd1 : (w.heap s1).disconnect = false) :
    ReadIncomingMessages_body ((afterTwoJoins v1 v2 w s1 s2).heap s1) msg (some err)
      = ([Intent.disconnects n], Ctl.stop) ∧
    mapGet (afterTwoJoins v1 v2 w s1 s2).cr.users n = some s2 ∧
    ((ListenForMessages_body v3 (afterTwoJoins v1 v2 w s1 s2) (Intent.disconnects n)).heap s2).disconnect
      = true ∧
    ((ListenForMessages_body v3 (afterTwoJoins v1 v2 w s1 s2) (Intent.disconnects n)).heap s2).conn.closeCalls
      = (w.heap s2).conn.closeCalls + 1 ∧
    n ∉ mapKeys (ListenForMessages_body v3 (afterTwoJoins v1 v2 w s1 s2) (Intent.disconnects n)).cr.users ∧
    ((ListenForMessages_body v3 (afterTwoJoins v1 v2 w s1 s2) (Intent.disconnects n)).heap s1).disconnect
      = false ∧
    ((ListenForMessages_body v3 (afterTwoJoins v1 v2 w s1 s2) (Intent.disconnects n)).heap s1).conn
      = (w.heap s1).conn := by
  have hwj : afterTwoJoins v1 v2 w s1 s2 =
      ListenForMessages_body v2 (ListenForMessages_body v1 w (Intent.joins s1)) (Intent.joins s2) :=
    rfl
  have hu2 : ((ListenForMessages_body v1 w (Intent.joins s1)).heap s2).username = n := by
    rw [username_body, hn2]
  have hget : mapGet (afterTwoJoins v1 v2 w s1 s2).cr.users n = some s2 := by
    rw [hwj]
    simp only [ListenForMessages_body, hn1] at hu2 ⊢
    rw [hu2]
    exact mapGet_mapSet_self _ _ _
  have hname1 : ((afterTwoJoins v1 v2 w s1 s2).heap s1).username = n := by
    rw [hwj, username_body, username_body, hn1]
  have hflag1 : ((afterTwoJoins v1 v2 w s1 s2).heap s1).disconnect = false := by
    rw [hwj, (joins_frame _ _ _ _).1, (joins_frame _ _ _ _).1, hd1]
  have hconn1 : ((afterTwoJoins v1 v2 w s1 s2).heap s1).conn = (w.heap s1).conn := by
    rw [hwj, (joins_frame _ _ _ _).2, (joins_frame _ _ _ _).2]
  have hconn2 : ((afterTwoJoins v1 v2 w s1 s2).heap s2).conn = (w.heap s2).conn := by
    rw [hwj, (joins_frame _ _ _ _).2, (joins_frame _ _ _ _).2]
  have hf2 := Broadcast_frame v3 { users := mapDelete (afterTwoJoins v1 v2 w s1 s2).cr.users n }
    ("*** " ++ n ++ " has disconnected")
    (Function.update (afterTwoJoins v1 v2 w s1 s2).heap s2
      ((afterTwoJoins v1 v2 w s1 s2).heap s2).Close) s2
  have hf1 := Broadcast_frame v3 { users := mapDelete (afterTwoJoins v1 v2 w s1 s2).cr.users n }
    ("*** " ++ n ++ " has disconnected")
    (Function.update (afterTwoJoins v1 v2 w s1 s2).heap s2
      ((afterTwoJoins v1 v2 w s1 s2).heap s2).Close) s1
  rw [Function.update_same] at hf2
  rw [Function.update_noteq hne] at hf1
  refine ⟨?_, hget, ?_, ?_, ?_, ?_, ?_⟩
  · simp [ReadIncomingMessages_body, hflag1, hname1, ChatRoom.Logout]
  · rw [body_disconnects_some _ _ _ _ hget]
    exact hf2.2.1
  · rw [body_disconnects_some _ _ _ _ hget]
    have h := congrArg Conn.closeCalls hf2.2.2
    rw [← hconn2]
    exact h
  · intro hmem
    rcases (mem_mapKeys_body v3 _ (Intent.disconnects n) n).mp hmem with ⟨s, hs, _⟩ | ⟨_, hx⟩
    · cases hs
    · exact hx rfl
  · rw [body_disconnects_some _ _ _ _ hget]
    exact hf1.2.1.trans hflag1
  · rw [body_disconnects_some _ _ _ _ hget]
    exact hf1.2.2.trans hconn1

/-- Sessions 0 and 1, both alice, join; the failed read of session 0 evicts session 1. -/
theorem superseded_session_evicts_successor_witness :
    (0 : Ptr) ≠ 1 ∧ (roomEx.heap 0).username = "alice" ∧ (roomEx.heap 1).username = "alice" ∧
    (roomEx.heap 0).disconnect = false ∧
    ReadIncomingMessages_body ((afterTwoJoins id id roomEx 0 1).heap 0) "" (some "EOF")
      = ([Intent.disconnects "alice"], Ctl.stop) ∧
    mapGet (afterTwoJoins id id roomEx 0 1).cr.users "alice" = some 1 ∧
    ((ListenForMessages_body id (afterTwoJoins id id roomEx 0 1)
      (Intent.disconnects "alice")).heap 1).disconnect = true ∧
    ((ListenForMessages_body id (afterTwoJoins id id roomEx 0 1)
      (Intent.disconnects "alice")).heap 1).conn.closeCalls
      = (roomEx.heap 1).conn.closeCalls + 1 ∧
    "alice" ∉ mapKeys (ListenForMessages_body id (afterTwoJoins id id roomEx 0 1)
      (Intent.disconnects "alice")).cr.users ∧
    ((ListenForMessages_body id (afterTwoJoins id id roomEx 0 1)
      (Intent.disconnects "alice")).heap 0).disconnect = false ∧
    ((ListenForMessages_body id (afterTwoJoins id id roomEx 0 1)
      (Intent.disconnects "alice")).heap 0).conn = (roomEx.heap 0).conn :=
  ⟨by decide, by decide, by decide, by decide,
    superseded_session_evicts_successor id id id roomEx "alice" 0 1 "" "EOF"
      (by decide) (by decide) (by decide) (by decide)⟩

/-! ## The text of the system notices -/

/-- C6 (the code at the failing input). Alice (session 0) joins the new room,
bob (session 2) joins and is logged out. The lines handed to the write loop of
alice are the three notices as the room builds them, none of them ending in a
newline, and the write loop puts them on the wire as they are: the bytes run
together, and the join notice differs from the newline-terminated
`"*** alice has joined\n"`. -/
theorem notices_lack_newline :
    ((ListenForMessages_body id ⟨NewChatRoom, heapEx⟩ (Intent.joins 0)).heap 0).outgoing
      = ["*** alice has joined"] ∧
    ((ListenForMessages_body id ⟨NewChatRoom, heapEx⟩ (Intent.joins 0)).heap 0).outgoing
      ≠ ["*** alice has joined\n"] ∧
    ((ListenForMessages
        [Pass.mk id (Intent.joins 0), Pass.mk id (Intent.joins 2),
          Pass.mk id (Intent.disconnects "bob")] ⟨NewChatRoom, heapEx⟩).heap 0).outgoing
      = ["*** alice has joined", "*** bob has joined", "*** bob has disconnected"] ∧
    WriteOutgoingMessages
      ((ListenForMessages
        [Pass.mk id (Intent.joins 0), Pass.mk id (Intent.joins 2),
          Pass.mk id (Intent.disconnects "bob")] ⟨NewChatRoom, heapEx⟩).heap 0).outgoing
      = "*** alice has joined*** bob has joined*** bob has disconnected" := by
  refine ⟨by decide, by decide, by decide, by decide⟩

end Chat
